import Mathlib

/-!
Verification of the filter-store model of the `custom-search-filters` VS Code
extension (source: `src/extension.ts`).

The development shallowly embeds the persistence and merge logic of the
extension:

* the pure Pattern Combinator `appendToPattern` (extension.ts 324-334),
  together with explicit models of the JavaScript string primitives it uses
  (`String.prototype.split(',')`, `String.prototype.trim`, `Array.join(',')`)
  as structurally recursive functions on `List Char`;
* the Global Filter Store `loadGlobalFilters` / `saveGlobalFilters`
  (extension.ts 38-91) over an explicit configuration state, with the
  `globalFiltersEnabled` object modelled as an insertion-ordered association
  list with JavaScript assignment semantics;
* the legacy-state migration `migrateGlobalFiltersFromState`
  (extension.ts 94-124);
* the Workspace Filter Store `loadProjectFilters` / `saveProjectFilters`
  (extension.ts 127-167) over an explicit file-system state whose file
  contents are either a parsed filter array or malformed data (covering
  both bad JSON and read errors, which the source treats identically);
* the Registry operations `loadAllFilters` (extension.ts 170-182),
  `deleteFilter` (192-225), `saveFilter` (242-321) and the selection
  visibility filter of the `selectAndSearch` command (660-666), with user
  prompt answers passed in as explicit parameters.
-/

namespace CustomSearchFilters

/-- Scope of a filter: stored globally or per workspace
(extension.ts line 13, the two string literals of the TS union type). -/
inductive Scope where
  | global
  | workspace
deriving DecidableEq, Repr

/-- The `SearchFilter` interface (extension.ts 9-15). Optional TS fields
become `Option`; an absent field is `none`. -/
structure SearchFilter where
  name : String
  «include» : String
  exclude : String
  scope : Option Scope := none
  enabled : Option Bool := none
deriving DecidableEq, Repr

/-! ## JavaScript string primitives used by the Pattern Combinator -/

/-- Whitespace test used by our model of `String.prototype.trim`. JavaScript
trims the full Unicode white-space set; the source's patterns only ever meet
ASCII whitespace, which is what we model. -/
def isJsWhitespace (c : Char) : Bool :=
  c == ' ' || c == '\t' || c == '\n' || c == '\r'

/-- Model of `String.prototype.trim` on the character list: drop leading and
trailing whitespace. -/
def trimChars (l : List Char) : List Char :=
  ((l.dropWhile isJsWhitespace).reverse.dropWhile isJsWhitespace).reverse

/-- Model of `String.prototype.trim` at the `String` level. -/
def jsTrim (s : String) : String :=
  ⟨trimChars s.data⟩

/-- Model of `String.prototype.split(',')` on the character list. As in
JavaScript, the empty string splits to `[""]` and a trailing separator
produces a trailing empty segment. -/
def splitCommaChars : List Char → List (List Char)
  | [] => [[]]
  | c :: rest =>
    let r := splitCommaChars rest
    if c = ',' then [] :: r
    else (c :: r.headD []) :: r.tail

/-- Model of `String.prototype.split(',')` at the `String` level. -/
def jsSplitComma (s : String) : List String :=
  (splitCommaChars s.data).map fun l => ⟨l⟩

/-- Model of `Array.prototype.join(',')` on strings. -/
def jsJoinComma : List String → String
  | [] => ""
  | [p] => p
  | p :: q :: rest => p ++ "," ++ jsJoinComma (q :: rest)

/-- The segment list the combinator works on:
`existingPattern.split(',').map(p => p.trim()).filter(p => p !== '')`
(extension.ts line 329). -/
def segments (s : String) : List String :=
  ((jsSplitComma s).map jsTrim).filter fun p => p ≠ ""

/-- The Pattern Combinator `appendToPattern` (extension.ts 324-334).
`none` stands for a TS `undefined`/`null` argument; the falsy test
`!existingPattern || existingPattern.trim() === ''` collapses to the trim
test on `Option.some` since `"".trim()` is empty anyway. -/
def appendToPattern (existingPattern : Option String) (pathToAdd : String) : String :=
  match existingPattern with
  | none => pathToAdd
  | some s =>
    if jsTrim s = "" then pathToAdd
    else
      let patterns := segments s
      let patterns := if pathToAdd ∈ patterns then patterns else patterns ++ [pathToAdd]
      jsJoinComma patterns

/-! ## Global Filter Store (VS Code settings) -/

/-- The two persisted configuration values of the global store
(`custom-search-filters.globalFilters` and
`custom-search-filters.globalFiltersEnabled`). The enabled map is an
insertion-ordered association list, modelling a JSON object. -/
structure GlobalConfig where
  globalFilters : List SearchFilter := []
  globalFiltersEnabled : List (String × Bool) := []
deriving DecidableEq, Repr

/-- Model of JavaScript property lookup `m[k]` on the enabled map;
`hasOwnProperty` is `(lookupKey m k).isSome`. -/
def lookupKey (m : List (String × Bool)) (k : String) : Option Bool :=
  (m.find? fun p => p.1 = k).map (·.2)

/-- Model of JavaScript property assignment `m[k] = v`: overwrite in place
when the key exists, append otherwise. -/
def setKey (m : List (String × Bool)) (k : String) (v : Bool) : List (String × Bool) :=
  match m with
  | [] => [(k, v)]
  | (k', v') :: rest => if k' = k then (k, v) :: rest else (k', v') :: setKey rest k v

/-- The helper `loadGlobalFilters` (extension.ts 38-60): read the stored
definitions, stamp `scope: f.scope || 'global'`, and merge the enabled state
(`hasOwnProperty` hit uses the stored boolean, miss defaults to `true`). -/
def loadGlobalFilters (config : GlobalConfig) : List SearchFilter :=
  config.globalFilters.map fun f =>
    { f with
      scope := some (f.scope.getD Scope.global)
      enabled := some ((lookupKey config.globalFiltersEnabled f.name).getD true) }

/-- The helper `saveGlobalFilters` (extension.ts 63-91): keep only entries
whose scope defaults to global, strip `enabled` from the stored definition
objects, and rebuild the enabled map from scratch with `enabled` defaulted
to `true`. Returns the new configuration and the success flag. -/
def saveGlobalFilters (_config : GlobalConfig) (filters : List SearchFilter) :
    GlobalConfig × Bool :=
  let globalFilters := filters.filter fun f => f.scope.getD Scope.global = Scope.global
  let filtersToSave := globalFilters.map fun f => { f with enabled := none }
  let enabledMap := globalFilters.foldl (fun m f => setKey m f.name (f.enabled.getD true)) []
  ({ globalFilters := filtersToSave, globalFiltersEnabled := enabledMap }, true)

/-- The legacy `context.globalState` blob keyed `customSearchFilters`
(extension.ts lines 18, 97, 173). -/
structure GlobalState where
  customSearchFilters : Option (List SearchFilter) := none
deriving DecidableEq, Repr

/-- The one-time migration `migrateGlobalFiltersFromState` (extension.ts
94-124): no-op when the legacy blob is empty or the settings already hold
filters; otherwise copy every legacy filter with `enabled` defaulted to
`true` through `saveGlobalFilters`. The legacy blob is never cleared. -/
def migrateGlobalFiltersFromState (context : GlobalState) (config : GlobalConfig) :
    GlobalConfig :=
  let filtersInState := context.customSearchFilters.getD []
  if filtersInState.length = 0 then config
  else if (loadGlobalFilters config).length > 0 then config
  else
    let filtersToMigrate := filtersInState.map fun f =>
      { f with enabled := some (f.enabled.getD true) }
    (saveGlobalFilters config filtersToMigrate).1

/-! ## Workspace Filter Store (project JSON file) -/

/-- Contents of `.vscode/custom-search-filters.json` when the file exists:
either a parsed array of filter objects, or data whose read/parse fails
(malformed JSON and I/O errors land in the same `catch`). -/
inductive ProjectFileData where
  | malformed
  | valid (filters : List SearchFilter)
deriving DecidableEq, Repr

/-- Workspace-side state: whether a workspace root is open
(`getProjectFiltersPath` returns a path), and the filter file
(`none` = the file does not exist). -/
structure WorkspaceState where
  root : Bool := false
  file : Option ProjectFileData := none
deriving DecidableEq, Repr

/-- The helper `loadProjectFilters` (extension.ts 127-144): empty list when
no root is open, the file is missing, or reading/parsing fails; otherwise
every parsed entry gets `scope: 'workspace'` stamped over whatever was
stored. -/
def loadProjectFilters (ws : WorkspaceState) : List SearchFilter :=
  if ws.root = false then []
  else
    match ws.file with
    | none => []
    | some ProjectFileData.malformed => []
    | some (ProjectFileData.valid filters) =>
      filters.map fun f => { f with scope := some Scope.workspace }

/-- The helper `saveProjectFilters` (extension.ts 147-167): fails when no
root is open; otherwise replaces the file with the workspace-scoped subset
of the input. -/
def saveProjectFilters (ws : WorkspaceState) (filters : List SearchFilter) :
    WorkspaceState × Bool :=
  if ws.root = false then (ws, false)
  else
    ({ ws with
        file := some (ProjectFileData.valid
          (filters.filter fun f => f.scope = some Scope.workspace)) }, true)

/-! ## Filter Registry -/

/-- The whole persistent state the extension reads and writes: the settings
configuration, the legacy global state and the workspace file system. -/
structure ExtensionState where
  config : GlobalConfig := {}
  globalState : GlobalState := {}
  ws : WorkspaceState := {}
deriving DecidableEq, Repr

/-- The helper `loadAllFilters` (extension.ts 170-182): global filters from
settings, falling back to the legacy `globalState` blob (scope defaulted to
global) when the settings list is empty, followed by the project filters. -/
def loadAllFilters (st : ExtensionState) : List SearchFilter :=
  let globalFiltersFromSettings := loadGlobalFilters st.config
  let globalFiltersFromState := st.globalState.customSearchFilters.getD []
  let globalFilters :=
    if globalFiltersFromSettings.length > 0 then globalFiltersFromSettings
    else globalFiltersFromState.map fun f => { f with scope := some (f.scope.getD Scope.global) }
  globalFilters ++ loadProjectFilters st.ws

/-- The selection visibility filter of the `selectAndSearch` command
(extension.ts 660-666): workspace filters always pass, global filters pass
unless `enabled === false`. -/
def visibleForSelection (savedFilters : List SearchFilter) : List SearchFilter :=
  savedFilters.filter fun filter =>
    if filter.scope = some Scope.workspace then true
    else filter.enabled ≠ some false

/-- The helper `deleteFilter` (extension.ts 192-225): dispatch on the
filter's scope (default global); the workspace branch drops entries matching
name and workspace scope from the project file, the global branch drops
entries matching the name from the loaded global list and saves back. -/
def deleteFilter (st : ExtensionState) (filterToDelete : SearchFilter) :
    ExtensionState × Bool :=
  if filterToDelete.scope.getD Scope.global = Scope.workspace then
    let projectFilters := loadProjectFilters st.ws
    let updatedFilters := projectFilters.filter fun f =>
      ¬(f.name = filterToDelete.name ∧ f.scope = some Scope.workspace)
    let saved := saveProjectFilters st.ws updatedFilters
    ({ st with ws := saved.1 }, saved.2)
  else
    let globalFilters := loadGlobalFilters st.config
    let updatedFilters := globalFilters.filter fun f => f.name ≠ filterToDelete.name
    let saved := saveGlobalFilters st.config updatedFilters
    ({ st with config := saved.1 }, saved.2)

/-- The helper `saveFilter` (extension.ts 242-321). The two user prompts are
passed in explicitly: `askScopeAnswer` is the scope quick-pick answer used
only when neither the filter nor the caller provides a scope (`none` =
cancelled), and `overwriteAnswer` is the `['Yes', 'No']` quick-pick answer
(`none` = cancelled); any answer other than `'Yes'` aborts an overwrite.
Returns the possibly updated state and the success flag. -/
def saveFilter (st : ExtensionState) (newFilter : SearchFilter)
    (scope : Option Scope) (askScopeAnswer : Option Scope)
    (overwriteAnswer : Option String) : ExtensionState × Bool :=
  let resolvedScope : Option Scope :=
    if newFilter.scope = none ∧ scope = none then askScopeAnswer
    else some (scope.getD (newFilter.scope.getD Scope.global))
  match resolvedScope with
  | none => (st, false)
  | some filterScope =>
    let nf := { newFilter with scope := some filterScope }
    let allFilters := loadAllFilters st
    let existingFilter := allFilters.find? fun f =>
      f.name = nf.name ∧ f.scope = some filterScope
    if existingFilter.isSome ∧ overwriteAnswer ≠ some "Yes" then (st, false)
    else if filterScope = Scope.workspace then
      let projectFilters := loadProjectFilters st.ws
      let updatedFilters :=
        match projectFilters.findIdx? (fun f => f.name = nf.name) with
        | some i => projectFilters.set i nf
        | none => projectFilters ++ [nf]
      let saved := saveProjectFilters st.ws updatedFilters
      ({ st with ws := saved.1 }, saved.2)
    else
      let globalFilters := loadGlobalFilters st.config
      let updatedFilters :=
        match globalFilters.findIdx? (fun f => f.name = nf.name) with
        | some i =>
          let nf' :=
            if nf.enabled = none then
              { nf with enabled := some (((globalFilters.get? i).bind (·.enabled)).getD true) }
            else nf
          globalFilters.set i nf'
        | none =>
          let nf' := if nf.enabled = none then { nf with enabled := some true } else nf
          globalFilters ++ [nf']
      let saved := saveGlobalFilters st.config updatedFilters
      ({ st with config := saved.1 }, saved.2)

/-! ## Lemmas about the string primitives -/

theorem length_dropWhile_le (p : Char → Bool) (l : List Char) :
    (l.dropWhile p).length ≤ l.length := by
  induction l with
  | nil => simp
  | cons c t ih =>
    by_cases h : p c
    · rw [List.dropWhile_cons, if_pos h]
      exact Nat.le_succ_of_le ih
    · rw [List.dropWhile_cons, if_neg h]

theorem dropWhile_idem (p : Char → Bool) (l : List Char) :
    (l.dropWhile p).dropWhile p = l.dropWhile p := by
  induction l with
  | nil => rfl
  | cons c t ih =>
    by_cases h : p c
    · rw [List.dropWhile_cons, if_pos h, ih]
    · rw [List.dropWhile_cons, if_neg h, List.dropWhile_cons, if_neg h]

theorem dropWhile_eq_self_of_front (p : Char → Bool) {x y : List Char}
    (hx : x.dropWhile p = x) (hxy : y <+: x) : y.dropWhile p = y := by
  cases y with
  | nil => rfl
  | cons c y' =>
    obtain ⟨r, hr⟩ := hxy
    subst hr
    by_cases hc : p c
    · exfalso
      rw [List.cons_append, List.dropWhile_cons, if_pos hc] at hx
      have hlen := congrArg List.length hx
      have hle := length_dropWhile_le p (y' ++ r)
      simp [List.length_append] at hlen hle
      omega
    · rw [List.dropWhile_cons, if_neg hc]

theorem trimChars_idem (l : List Char) : trimChars (trimChars l) = trimChars l := by
  unfold trimChars
  have hAfix : (l.dropWhile isJsWhitespace).dropWhile isJsWhitespace
      = l.dropWhile isJsWhitespace := dropWhile_idem isJsWhitespace l
  have hpre : ((l.dropWhile isJsWhitespace).reverse.dropWhile isJsWhitespace).reverse
      <+: l.dropWhile isJsWhitespace := by
    have hsuf := List.dropWhile_suffix (l := (l.dropWhile isJsWhitespace).reverse)
      isJsWhitespace
    have := List.reverse_prefix.mpr hsuf
    simpa using this
  rw [dropWhile_eq_self_of_front isJsWhitespace hAfix hpre, List.reverse_reverse,
    dropWhile_idem]

theorem mem_trimChars {c : Char} {l : List Char} (h : c ∈ trimChars l) : c ∈ l := by
  unfold trimChars at h
  rw [List.mem_reverse] at h
  have h1 := (List.dropWhile_suffix isJsWhitespace).sublist.subset h
  rw [List.mem_reverse] at h1
  exact (List.dropWhile_suffix isJsWhitespace).sublist.subset h1

theorem trimChars_eq_nil {l : List Char} (h : ∀ c ∈ l, isJsWhitespace c = true) :
    trimChars l = [] := by
  unfold trimChars
  rw [List.dropWhile_eq_nil_iff.mpr h]
  rfl

theorem all_ws_of_trimChars_eq_nil {l : List Char} (h : trimChars l = []) :
    ∀ c ∈ l, isJsWhitespace c = true := by
  intro c hc
  unfold trimChars at h
  rw [List.reverse_eq_nil_iff] at h
  have h2 := List.dropWhile_eq_nil_iff.mp h
  have h3 : ∀ x ∈ l.dropWhile isJsWhitespace, isJsWhitespace x = true := fun x hx =>
    h2 x (List.mem_reverse.mpr hx)
  have hsplit : l.takeWhile isJsWhitespace ++ l.dropWhile isJsWhitespace = l := by simp
  rw [← hsplit] at hc
  rcases List.mem_append.mp hc with h4 | h4
  · exact List.mem_takeWhile_imp h4
  · exact h3 c h4

theorem splitCommaChars_ne_nil (l : List Char) : splitCommaChars l ≠ [] := by
  cases l with
  | nil => simp [splitCommaChars]
  | cons c rest => by_cases h : c = ',' <;> simp [splitCommaChars, h]

theorem headD_mem_splitCommaChars (l : List Char) :
    (splitCommaChars l).head?.getD [] ∈ splitCommaChars l := by
  cases hsp : splitCommaChars l with
  | nil => exact absurd hsp (splitCommaChars_ne_nil l)
  | cons a t => simp

theorem mem_of_mem_splitCommaChars :
    ∀ {l h : List Char}, h ∈ splitCommaChars l → ∀ {c : Char}, c ∈ h → c ∈ l := by
  intro l
  induction l with
  | nil =>
    intro h hh c hc
    simp [splitCommaChars] at hh
    subst hh
    simp at hc
  | cons d rest ih =>
    intro h hh c hc
    by_cases hd : d = ','
    · simp [splitCommaChars, hd] at hh
      rcases hh with rfl | hh
      · simp at hc
      · exact List.mem_cons_of_mem d (ih hh hc)
    · simp [splitCommaChars, hd] at hh
      rcases hh with rfl | hh
      · rcases List.mem_cons.mp hc with rfl | hc2
        · exact List.mem_cons_self c rest
        · exact List.mem_cons_of_mem d (ih (headD_mem_splitCommaChars rest) hc2)
      · exact List.mem_cons_of_mem d (ih ((List.tail_sublist _).subset hh) hc)

theorem not_comma_mem_splitCommaChars :
    ∀ {l h : List Char}, h ∈ splitCommaChars l → ',' ∉ h := by
  intro l
  induction l with
  | nil =>
    intro h hh
    simp [splitCommaChars] at hh
    subst hh
    simp
  | cons d rest ih =>
    intro h hh
    by_cases hd : d = ','
    · simp [splitCommaChars, hd] at hh
      rcases hh with rfl | hh
      · simp
      · exact ih hh
    · simp [splitCommaChars, hd] at hh
      rcases hh with rfl | hh
      · intro hcm
        rcases List.mem_cons.mp hcm with heq | hc2
        · exact hd heq.symm
        · exact ih (headD_mem_splitCommaChars rest) hc2
      · exact ih ((List.tail_sublist _).subset hh)

theorem splitCommaChars_of_not_comma : ∀ {p : List Char}, ',' ∉ p → splitCommaChars p = [p] := by
  intro p
  induction p with
  | nil => intro _; rfl
  | cons c p ih =>
    intro h
    have hc : ¬c = ',' := fun hh => h (hh ▸ List.mem_cons_self c p)
    have hp : ',' ∉ p := fun hh => h (List.mem_cons_of_mem c hh)
    simp [splitCommaChars, hc, ih hp]

theorem splitCommaChars_append_comma {p : List Char} (s : List Char) (h : ',' ∉ p) :
    splitCommaChars (p ++ ',' :: s) = p :: splitCommaChars s := by
  induction p with
  | nil => simp [splitCommaChars]
  | cons c p ih =>
    have hc : ¬c = ',' := fun hh => h (hh ▸ List.mem_cons_self c p)
    have hp : ',' ∉ p := fun hh => h (List.mem_cons_of_mem c hh)
    simp [splitCommaChars, hc, ih hp]

theorem jsTrim_idem (s : String) : jsTrim (jsTrim s) = jsTrim s := by
  show (⟨trimChars (trimChars s.data)⟩ : String) = ⟨trimChars s.data⟩
  rw [trimChars_idem]

theorem segments_eq_nil_of_jsTrim {s : String} (h : jsTrim s = "") : segments s = [] := by
  have htc : trimChars s.data = [] := congrArg String.data h
  have hws : ∀ c ∈ s.data, isJsWhitespace c = true := all_ws_of_trimChars_eq_nil htc
  rw [segments, List.filter_eq_nil_iff]
  intro x hx
  obtain ⟨y, hy, rfl⟩ := List.mem_map.mp hx
  obtain ⟨hl, hhl, rfl⟩ := List.mem_map.mp hy
  have : jsTrim ⟨hl⟩ = "" := by
    show (⟨trimChars hl⟩ : String) = ""
    rw [trimChars_eq_nil fun c hc => hws c (mem_of_mem_splitCommaChars hhl hc)]
  simp [this]

theorem jsJoinComma_cons_cons (p q : String) (rest : List String) :
    (jsJoinComma (p :: q :: rest)).data = p.data ++ ',' :: (jsJoinComma (q :: rest)).data := by
  show (p ++ "," ++ jsJoinComma (q :: rest)).data = _
  rw [String.data_append, String.data_append]
  simp

theorem jsSplitComma_jsJoinComma :
    ∀ {l : List String}, l ≠ [] → (∀ x ∈ l, ',' ∉ x.data) →
      jsSplitComma (jsJoinComma l) = l := by
  intro l
  induction l with
  | nil => intro h _; exact absurd rfl h
  | cons p rest ih =>
    intro _ hcl
    cases rest with
    | nil =>
      show jsSplitComma p = [p]
      rw [jsSplitComma, splitCommaChars_of_not_comma (hcl p (List.mem_cons_self p []))]
      rfl
    | cons q rest' =>
      rw [jsSplitComma, jsJoinComma_cons_cons,
        splitCommaChars_append_comma _ (hcl p (List.mem_cons_self p (q :: rest')))]
      rw [List.map_cons]
      have hrest : jsSplitComma (jsJoinComma (q :: rest')) = q :: rest' :=
        ih (by simp) fun x hx => hcl x (List.mem_cons_of_mem p hx)
      rw [jsSplitComma] at hrest
      rw [hrest]

theorem segments_jsJoinComma {l : List String}
    (h : ∀ x ∈ l, x ≠ "" ∧ jsTrim x = x ∧ ',' ∉ x.data) :
    segments (jsJoinComma l) = l := by
  cases l with
  | nil => decide
  | cons p rest =>
    rw [segments, jsSplitComma_jsJoinComma (by simp) fun x hx => (h x hx).2.2]
    rw [List.map_congr_left fun x hx => (h x hx).2.1, List.map_id']
    exact List.filter_eq_self.mpr fun a ha => by simpa using (h a ha).1

theorem clean_of_mem_segments {s x : String} (h : x ∈ segments s) :
    x ≠ "" ∧ jsTrim x = x ∧ ',' ∉ x.data := by
  rw [segments] at h
  have hne : x ≠ "" := by simpa using List.of_mem_filter h
  have hx : x ∈ (jsSplitComma s).map jsTrim := List.mem_of_mem_filter h
  obtain ⟨y, hy, rfl⟩ := List.mem_map.mp hx
  refine ⟨hne, jsTrim_idem y, ?_⟩
  intro hcm
  have h1 : ',' ∈ y.data := mem_trimChars hcm
  obtain ⟨hl, hhl, rfl⟩ := List.mem_map.mp hy
  exact not_comma_mem_splitCommaChars hhl h1

/-! ## Claim C2 -/

/-- Counterexample to claim C2: for the existing pattern string
`"a , b"` the pattern `"a"` is already present (by exact match after
trimming each comma-separated segment), yet `appendToPattern` does not
return the string itself — it returns the normalized form `"a,b"`. -/
theorem appendToPattern_mem_not_id_counterexample :
    "a" ∈ segments "a , b" ∧ appendToPattern (some "a , b") "a" ≠ "a , b" := by
  decide

/-- Claim C2 (amended): for every pattern string P and pattern X already
present in P by exact match after trimming each comma-separated segment,
appendToPattern returns the normalized form of P — the comma-join of P's
trimmed non-empty segments, order and content of the segments unchanged —
which equals P itself whenever P is already in that normalized form. -/
theorem appendToPattern_mem_normalizes (P X : String) (hX : X ∈ segments P) :
    appendToPattern (some P) X = jsJoinComma (segments P) ∧
    (P = jsJoinComma (segments P) → appendToPattern (some P) X = P) := by
  have hP : jsTrim P ≠ "" := by
    intro h0
    rw [segments_eq_nil_of_jsTrim h0] at hX
    simp at hX
  have h1 : appendToPattern (some P) X = jsJoinComma (segments P) := by
    simp [appendToPattern, hP, hX]
  exact ⟨h1, fun h2 => by rw [h1, ← h2]⟩

/-- Witness for C2 at the normalized pattern string `"a,b"`. -/
theorem appendToPattern_mem_normalizes_witness :
    appendToPattern (some "a,b") "a" = jsJoinComma (segments "a,b") ∧
    (("a,b" : String) = jsJoinComma (segments "a,b") → appendToPattern (some "a,b") "a" = "a,b") :=
  appendToPattern_mem_normalizes "a,b" "a" (by decide)

/-! ## Claim C3 -/

/-- Counterexample to claim C3: for the non-empty existing pattern
`"a,a"` and the absent pattern `"b"`, the result keeps both copies of
`"a"` — existing duplicate segments are not deduplicated, contrary to the
claim's comma-join of deduplicated segments. -/
theorem appendToPattern_no_dedup_counterexample :
    "b" ∉ segments "a,a" ∧
    appendToPattern (some "a,a") "b" ≠ jsJoinComma ((segments "a,a").dedup ++ ["b"]) := by
  decide

/-- Claim C3 (amended): for every pattern string P that is non-blank and
pattern X not present among P's trimmed segments, appendToPattern returns
the comma-join of P's trimmed non-empty segments — duplicates preserved,
not deduplicated — followed by X at the end; and when X is itself a
trimmed, non-empty, comma-free pattern, X occurs exactly once among the
result's segments. -/
theorem appendToPattern_not_mem_appends (P X : String)
    (hP : jsTrim P ≠ "") (hX : X ∉ segments P)
    (hne : X ≠ "") (htr : jsTrim X = X) (hc : ',' ∉ X.data) :
    appendToPattern (some P) X = jsJoinComma (segments P ++ [X]) ∧
    (segments (appendToPattern (some P) X)).count X = 1 := by
  have h1 : appendToPattern (some P) X = jsJoinComma (segments P ++ [X]) := by
    simp [appendToPattern, hP, hX]
  refine ⟨h1, ?_⟩
  rw [h1, segments_jsJoinComma ?_]
  · rw [List.count_append, List.count_eq_zero.mpr hX]
    simp
  · intro x hx
    rcases List.mem_append.mp hx with hx1 | hx2
    · exact clean_of_mem_segments hx1
    · rw [List.mem_singleton] at hx2
      subst hx2
      exact ⟨hne, htr, hc⟩

/-- Witness for C3 at P = `"a,b"`, X = `"c"`. -/
theorem appendToPattern_not_mem_appends_witness :
    appendToPattern (some "a,b") "c" = jsJoinComma (segments "a,b" ++ ["c"]) ∧
    (segments (appendToPattern (some "a,b") "c")).count "c" = 1 :=
  appendToPattern_not_mem_appends "a,b" "c" (by decide) (by decide) (by decide) (by decide)
    (by decide)

/-! ## Lemmas about the enabled-map association list -/

theorem lookupKey_cons (k0 : String) (v0 : Bool) (rest : List (String × Bool)) (k' : String) :
    lookupKey ((k0, v0) :: rest) k' = if k0 = k' then some v0 else lookupKey rest k' := by
  by_cases h : k0 = k' <;> simp [lookupKey, List.find?, h]

theorem lookupKey_setKey (m : List (String × Bool)) (k k' : String) (v : Bool) :
    lookupKey (setKey m k v) k' = if k' = k then some v else lookupKey m k' := by
  induction m with
  | nil =>
    rw [show setKey [] k v = [(k, v)] from rfl, lookupKey_cons]
    by_cases h : k' = k
    · subst h; simp
    · rw [if_neg fun hh : k = k' => h hh.symm, if_neg h]
  | cons p rest ih =>
    obtain ⟨k0, v0⟩ := p
    by_cases h0 : k0 = k
    · subst h0
      rw [show setKey ((k0, v0) :: rest) k0 v = (k0, v) :: rest from by simp [setKey],
        lookupKey_cons, lookupKey_cons]
      by_cases h : k0 = k'
      · subst h; simp
      · rw [if_neg h, if_neg fun hh : k' = k0 => h hh.symm, if_neg h]
    · rw [show setKey ((k0, v0) :: rest) k v = (k0, v0) :: setKey rest k v from by
        simp [setKey, h0], lookupKey_cons, ih, lookupKey_cons]
      by_cases h1 : k0 = k' <;> by_cases h2 : k' = k
      · exact absurd (h1.trans h2) h0
      · simp [h1, h2]
      · simp [h1, h2, h0]
      · simp [h1, h2]

theorem lookupKey_foldl_isSome (L : List SearchFilter) :
    ∀ (m₀ : List (String × Bool)) (n : String),
      (lookupKey (L.foldl (fun m f => setKey m f.name (f.enabled.getD true)) m₀) n).isSome
          = true ↔
        (lookupKey m₀ n).isSome = true ∨ n ∈ L.map SearchFilter.name := by
  induction L with
  | nil => intro m₀ n; simp
  | cons f L ih =>
    intro m₀ n
    rw [List.foldl_cons, ih]
    by_cases h : n = f.name
    · simp [lookupKey_setKey, h]
    · simp [lookupKey_setKey, h]

theorem lookupKey_foldl_of_not_mem (L : List SearchFilter) :
    ∀ (m₀ : List (String × Bool)) (n : String), n ∉ L.map SearchFilter.name →
      lookupKey (L.foldl (fun m f => setKey m f.name (f.enabled.getD true)) m₀) n =
        lookupKey m₀ n := by
  induction L with
  | nil => intro m₀ n _; rfl
  | cons f L ih =>
    intro m₀ n h
    rw [List.foldl_cons, ih _ n fun hh => h (by simp [List.mem_cons_of_mem, hh]),
      lookupKey_setKey, if_neg fun hh => h (by simp [hh])]

theorem lookupKey_foldl_eq (L : List SearchFilter) :
    ∀ (m₀ : List (String × Bool)), (L.map SearchFilter.name).Nodup →
      ∀ f ∈ L,
        lookupKey (L.foldl (fun m f => setKey m f.name (f.enabled.getD true)) m₀) f.name =
          some (f.enabled.getD true) := by
  induction L with
  | nil => intro m₀ _ f hf; simp at hf
  | cons g L ih =>
    intro m₀ hnodup f hf
    rw [List.map_cons, List.nodup_cons] at hnodup
    rcases List.mem_cons.mp hf with rfl | hf2
    · rw [List.foldl_cons, lookupKey_foldl_of_not_mem L _ f.name hnodup.1,
        lookupKey_setKey, if_pos rfl]
    · rw [List.foldl_cons]
      exact ih _ hnodup.2 f hf2

/-! ## Claim C1 -/

/-- Counterexample to claim C1: with an empty settings store and a
non-empty legacy globalState blob, loadAllFilters returns the legacy
filters (scope defaulted to global) rather than the concatenation of the
Global Store load result and the Workspace Store load result, which would
be empty here. -/
theorem loadAllFilters_legacy_fallback_counterexample :
    loadAllFilters
        { config := {},
          globalState := { customSearchFilters := some [{ name := "A", «include» := "", exclude := "" }] },
          ws := {} } ≠
      loadGlobalFilters {} ++ loadProjectFilters {} := by
  decide

/-- Claim C1 (amended): loadAllFilters returns the concatenation of the
Global Store load result followed by the Workspace Store load result — in
that order, with no sorting by name — whenever the Global Store load
result is non-empty or the legacy globalState blob is empty; when the
Global Store loads empty and the legacy blob is non-empty, the legacy
filters (scope defaulted to global) take the global part's place. -/
theorem loadAllFilters_concat (st : ExtensionState)
    (h : loadGlobalFilters st.config ≠ [] ∨ st.globalState.customSearchFilters.getD [] = []) :
    loadAllFilters st = loadGlobalFilters st.config ++ loadProjectFilters st.ws := by
  simp only [loadAllFilters]
  rcases h with h | h
  · rw [if_pos (List.length_pos.mpr h)]
  · by_cases h2 : 0 < (loadGlobalFilters st.config).length
    · rw [if_pos h2]
    · have hnil : loadGlobalFilters st.config = [] := by
        cases hl : loadGlobalFilters st.config with
        | nil => rfl
        | cons a t => rw [hl] at h2; simp at h2
      rw [if_neg h2, h, hnil]
      rfl

/-- Witness for C1 at a state whose settings store is non-empty. -/
theorem loadAllFilters_concat_witness :
    loadAllFilters
        { config := { globalFilters := [{ name := "A", «include» := "x", exclude := "" }],
                      globalFiltersEnabled := [] },
          globalState := {}, ws := { root := true, file := none } } =
      loadGlobalFilters
          { globalFilters := [{ name := "A", «include» := "x", exclude := "" }],
            globalFiltersEnabled := [] } ++
        loadProjectFilters { root := true, file := none } :=
  loadAllFilters_concat _ (Or.inl (by decide))

/-! ## Claim C4 -/

/-- Claim C4: with a workspace root open, saving a list of filters that
are all workspace-scoped to the Workspace Store succeeds, and a subsequent
load yields exactly that list with scope stamped workspace on every entry
(the stamp is the identity here since every entry is already
workspace-scoped). -/
theorem saveProject_loadProject_roundtrip (ws : WorkspaceState) (L : List SearchFilter)
    (hroot : ws.root = true) (hL : ∀ f ∈ L, f.scope = some Scope.workspace) :
    (saveProjectFilters ws L).2 = true ∧
    loadProjectFilters (saveProjectFilters ws L).1 = L := by
  have hfilter : L.filter (fun f => f.scope = some Scope.workspace) = L :=
    List.filter_eq_self.mpr fun a ha => by simp [hL a ha]
  have hstamp : ∀ f ∈ L, ({ f with scope := some Scope.workspace } : SearchFilter) = f := by
    intro f hf
    have hs := hL f hf
    cases f
    simp only at hs
    rw [← hs]
  constructor
  · simp [saveProjectFilters, hroot]
  · simp only [saveProjectFilters, hroot, Bool.true_eq_false, if_false, hfilter]
    simp only [loadProjectFilters, hroot, Bool.true_eq_false, if_false]
    rw [List.map_congr_left hstamp, List.map_id']

/-- Witness for C4 with an open workspace and one workspace filter. -/
theorem saveProject_loadProject_roundtrip_witness :
    (saveProjectFilters { root := true, file := none }
        [{ name := "B", «include» := "**/*.ts", exclude := "",
           scope := some Scope.workspace }]).2 = true ∧
    loadProjectFilters (saveProjectFilters { root := true, file := none }
        [{ name := "B", «include» := "**/*.ts", exclude := "",
           scope := some Scope.workspace }]).1 =
      [{ name := "B", «include» := "**/*.ts", exclude := "", scope := some Scope.workspace }] :=
  saveProject_loadProject_roundtrip _ _ rfl (by decide)

/-! ## Claim C6 -/

/-- Claim C6: the selection visibility filter keeps a filter exactly when
it is workspace-scoped (regardless of its enabled flag) or, otherwise, has
an enabled flag other than false (an absent flag counts as enabled). -/
theorem visibleForSelection_mem_iff (L : List SearchFilter) (f : SearchFilter) :
    f ∈ visibleForSelection L ↔
      f ∈ L ∧ (f.scope = some Scope.workspace ∨ f.enabled ≠ some false) := by
  rw [visibleForSelection, List.mem_filter]
  constructor
  · rintro ⟨h1, h2⟩
    refine ⟨h1, ?_⟩
    by_cases hs : f.scope = some Scope.workspace
    · exact Or.inl hs
    · right
      simp [hs] at h2
      exact h2
  · rintro ⟨h1, h2⟩
    refine ⟨h1, ?_⟩
    by_cases hs : f.scope = some Scope.workspace
    · simp [hs]
    · rcases h2 with h2 | h2
      · exact absurd h2 hs
      · simp [hs, h2]

/-! ## Claim C8 -/

/-- Claim C8: the Workspace Store load is total — it returns the empty
list when no workspace root is open, when the filter file does not exist,
and when the file contents are malformed (bad JSON or I/O error);
otherwise it returns the parsed entries with scope stamped workspace on
every entry, overriding any stored scope value. -/
theorem loadProjectFilters_total_spec (ws : WorkspaceState) :
    (ws.root = false → loadProjectFilters ws = []) ∧
    (ws.file = none → loadProjectFilters ws = []) ∧
    (ws.file = some ProjectFileData.malformed → loadProjectFilters ws = []) ∧
    (∀ l, ws.root = true → ws.file = some (ProjectFileData.valid l) →
      loadProjectFilters ws = l.map fun f => { f with scope := some Scope.workspace }) := by
  refine ⟨?_, ?_, ?_, ?_⟩
  · intro h
    simp [loadProjectFilters, h]
  · intro h
    by_cases hr : ws.root = false <;> simp [loadProjectFilters, hr, h]
  · intro h
    by_cases hr : ws.root = false <;> simp [loadProjectFilters, hr, h]
  · intro l hr h
    simp [loadProjectFilters, hr, h]

/-- Witness for C8 covering the no-root, malformed-file and parsed-file
cases. -/
theorem loadProjectFilters_total_spec_witness :
    loadProjectFilters { root := false, file := none } = [] ∧
    loadProjectFilters { root := true, file := some ProjectFileData.malformed } = [] ∧
    loadProjectFilters
        { root := true,
          file := some (ProjectFileData.valid
            [{ name := "B", «include» := "", exclude := "", scope := some Scope.global }]) } =
      [{ name := "B", «include» := "", exclude := "", scope := some Scope.workspace }] := by
  refine ⟨(loadProjectFilters_total_spec _).1 rfl,
    (loadProjectFilters_total_spec _).2.2.1 rfl, ?_⟩
  have h := (loadProjectFilters_total_spec
      { root := true,
        file := some (ProjectFileData.valid
          [{ name := "B", «include» := "", exclude := "", scope := some Scope.global }]) }).2.2.2
    [{ name := "B", «include» := "", exclude := "", scope := some Scope.global }] rfl rfl
  simpa using h

/-! ## Claim C5 -/

/-- Claim C5: when the legacy blob holds at least one global-scope filter,
running the migration twice with the same legacy data equals running it
once — after the first run the new store is non-empty, so the second run
is a no-op. -/
theorem migrateGlobalFiltersFromState_idempotent (ctx : GlobalState) (config : GlobalConfig)
    (h : ∃ f ∈ ctx.customSearchFilters.getD [], f.scope.getD Scope.global = Scope.global) :
    migrateGlobalFiltersFromState ctx (migrateGlobalFiltersFromState ctx config) =
      migrateGlobalFiltersFromState ctx config := by
  obtain ⟨f0, hf0, hf0g⟩ := h
  have hlen : ¬(ctx.customSearchFilters.getD []).length = 0 := by
    intro h0
    rw [List.length_eq_zero] at h0
    rw [h0] at hf0
    simp at hf0
  by_cases hex : 0 < (loadGlobalFilters config).length
  · have h1 : migrateGlobalFiltersFromState ctx config = config := by
      simp only [migrateGlobalFiltersFromState]
      rw [if_neg hlen, if_pos hex]
    rw [h1]
    exact h1
  · have h1 : migrateGlobalFiltersFromState ctx config =
        (saveGlobalFilters config ((ctx.customSearchFilters.getD []).map
          fun f => { f with enabled := some (f.enabled.getD true) })).1 := by
      simp only [migrateGlobalFiltersFromState]
      rw [if_neg hlen, if_neg hex]
    have h2 : 0 < (loadGlobalFilters (saveGlobalFilters config
        ((ctx.customSearchFilters.getD []).map
          fun f => { f with enabled := some (f.enabled.getD true) })).1).length := by
      have hmem : ({ f0 with enabled := some (f0.enabled.getD true) } : SearchFilter) ∈
          ((ctx.customSearchFilters.getD []).map
            (fun f => { f with enabled := some (f.enabled.getD true) })).filter
            (fun f => f.scope.getD Scope.global = Scope.global) := by
        rw [List.mem_filter]
        exact ⟨List.mem_map.mpr ⟨f0, hf0, rfl⟩, by simpa using hf0g⟩
      have hne : ((ctx.customSearchFilters.getD []).map
          (fun f => { f with enabled := some (f.enabled.getD true) })).filter
          (fun f => f.scope.getD Scope.global = Scope.global) ≠ [] := by
        intro h0
        rw [h0] at hmem
        simp at hmem
      simp only [loadGlobalFilters, saveGlobalFilters, List.length_map]
      exact List.length_pos.mpr hne
    rw [h1]
    simp only [migrateGlobalFiltersFromState]
    rw [if_neg hlen, if_pos h2]

/-- Witness for C5 with a legacy blob holding one global filter and an
empty settings store. -/
theorem migrateGlobalFiltersFromState_idempotent_witness :
    migrateGlobalFiltersFromState
        { customSearchFilters := some [{ name := "A", «include» := "src/**", exclude := "" }] }
        (migrateGlobalFiltersFromState
          { customSearchFilters := some [{ name := "A", «include» := "src/**", exclude := "" }] }
          {}) =
      migrateGlobalFiltersFromState
        { customSearchFilters := some [{ name := "A", «include» := "src/**", exclude := "" }] }
        {} :=
  migrateGlobalFiltersFromState_idempotent _ _
    ⟨{ name := "A", «include» := "src/**", exclude := "" }, by decide, by decide⟩

/-! ## Claim C9 -/

/-- Counterexample to claim C9: the Global Store save strips only the
enabled field; a persisted entry keeps the scope field of the input, so
the stored objects do not consist of exactly the fields name, include and
exclude. -/
theorem saveGlobalFilters_keeps_scope_counterexample :
    ¬(∀ f ∈ (saveGlobalFilters {}
        [{ name := "A", «include» := "src", exclude := "", scope := some Scope.global,
           enabled := some true }]).1.globalFilters,
        f.scope = none ∧ f.enabled = none) := by
  decide

/-- Claim C9 (amended): after a Global Store save, the persisted
globalFilters value is exactly the ordered list of the global-scope input
entries — order and multiplicity preserved — each with the enabled field
removed and every other field (name, include, exclude and in particular
scope) passed through unchanged; no persisted entry carries an enabled
field. -/
theorem saveGlobalFilters_strips_only_enabled (config : GlobalConfig) (L : List SearchFilter) :
    ((saveGlobalFilters config L).1.globalFilters =
        (L.filter fun f => f.scope.getD Scope.global = Scope.global).map
          fun f => { f with enabled := none }) ∧
    (∀ f, f ∈ (saveGlobalFilters config L).1.globalFilters ↔
        ∃ g ∈ L, g.scope.getD Scope.global = Scope.global ∧ f = { g with enabled := none }) ∧
    ∀ f ∈ (saveGlobalFilters config L).1.globalFilters, f.enabled = none := by
  refine ⟨rfl, ?_, ?_⟩
  · intro f
    simp only [saveGlobalFilters, List.mem_map, List.mem_filter]
    constructor
    · rintro ⟨g, ⟨hg, hgp⟩, rfl⟩
      exact ⟨g, hg, by simpa using hgp, rfl⟩
    · rintro ⟨g, hg, hgp, rfl⟩
      exact ⟨g, ⟨hg, by simpa using hgp⟩, rfl⟩
  · intro f hf
    simp only [saveGlobalFilters, List.mem_map] at hf
    obtain ⟨g, _, rfl⟩ := hf
    rfl

/-- Witness for C9: the entry persisted for a global filter carries no
enabled field. -/
theorem saveGlobalFilters_strips_only_enabled_witness :
    ({ name := "A", «include» := "src", exclude := "", scope := some Scope.global,
       enabled := none } : SearchFilter).enabled = none :=
  (saveGlobalFilters_strips_only_enabled {}
      [{ name := "A", «include» := "src", exclude := "", scope := some Scope.global,
         enabled := some true }]).2.2 _ (by decide)

/-! ## Claim C10 -/

/-- Claim C10: after a Global Store save of L, the persisted enabled map
has exactly the names of L's global-scope entries as keys; an entry whose
enabled flag is unset is stored as true (stated under distinct names,
since a duplicate name keeps only the last entry's flag); and deleting a
global filter removes its entry from the enabled map. -/
theorem saveGlobalFilters_enabledMap_sync :
    (∀ (config : GlobalConfig) (L : List SearchFilter) (n : String),
      (lookupKey (saveGlobalFilters config L).1.globalFiltersEnabled n).isSome = true ↔
        n ∈ (L.filter fun f => f.scope.getD Scope.global = Scope.global).map
          SearchFilter.name) ∧
    (∀ (config : GlobalConfig) (L : List SearchFilter),
      ((L.filter fun f => f.scope.getD Scope.global = Scope.global).map
          SearchFilter.name).Nodup →
      ∀ f ∈ L.filter fun f => f.scope.getD Scope.global = Scope.global,
        f.enabled = none →
        lookupKey (saveGlobalFilters config L).1.globalFiltersEnabled f.name = some true) ∧
    ∀ (st : ExtensionState) (ftd : SearchFilter),
      ftd.scope.getD Scope.global = Scope.global →
      lookupKey (deleteFilter st ftd).1.config.globalFiltersEnabled ftd.name = none := by
  refine ⟨?_, ?_, ?_⟩
  · intro config L n
    simp only [saveGlobalFilters]
    rw [lookupKey_foldl_isSome]
    simp [lookupKey]
  · intro config L hnodup f hf hen
    simp only [saveGlobalFilters]
    rw [lookupKey_foldl_eq _ [] hnodup f hf, hen]
    rfl
  · intro st ftd hsc
    have hcond : ¬ftd.scope.getD Scope.global = Scope.workspace := by
      rw [hsc]
      simp
    simp only [deleteFilter]
    rw [if_neg hcond]
    simp only [saveGlobalFilters]
    apply Option.not_isSome_iff_eq_none.mp
    rw [lookupKey_foldl_isSome]
    rintro (h | h)
    · simp [lookupKey] at h
    · obtain ⟨f, hf, hfn⟩ := List.mem_map.mp h
      have hf2 := List.mem_of_mem_filter hf
      have hne := List.of_mem_filter hf2
      simp at hne
      exact hne hfn

/-- Witness for C10: the enabled map stores true for a global filter with
no enabled flag, and deleting that filter removes its enabled-map entry. -/
theorem saveGlobalFilters_enabledMap_sync_witness :
    lookupKey (saveGlobalFilters {}
        [{ name := "A", «include» := "", exclude := "", scope := some Scope.global }]).1.globalFiltersEnabled
      "A" = some true ∧
    lookupKey (deleteFilter {}
        { name := "A", «include» := "", exclude := "", scope := some Scope.global }).1.config.globalFiltersEnabled
      "A" = none :=
  ⟨saveGlobalFilters_enabledMap_sync.2.1 {}
      [{ name := "A", «include» := "", exclude := "", scope := some Scope.global }] (by decide)
      { name := "A", «include» := "", exclude := "", scope := some Scope.global } (by decide) rfl,
   saveGlobalFilters_enabledMap_sync.2.2 {}
      { name := "A", «include» := "", exclude := "", scope := some Scope.global } (by decide)⟩

/-! ## Claim C7 -/

/-- Claim C7: when a global filter with the new filter's name already
exists in the merged view and the user answers the overwrite prompt with
anything other than Yes, saveFilter returns false and the whole state —
both backing stores — is returned unchanged (no write happens). -/
theorem saveFilter_decline_overwrite_no_write (st : ExtensionState)
    (newFilter : SearchFilter) (askScopeAnswer : Option Scope)
    (overwriteAnswer : Option String)
    (hscope : newFilter.scope = some Scope.global)
    (hdup : ∃ f ∈ loadAllFilters st, f.name = newFilter.name ∧ f.scope = some Scope.global)
    (hans : overwriteAnswer ≠ some "Yes") :
    saveFilter st newFilter none askScopeAnswer overwriteAnswer = (st, false) := by
  obtain ⟨f0, hf0, hf0n, hf0s⟩ := hdup
  have hsome : ((loadAllFilters st).find? fun f =>
      decide (f.name = newFilter.name ∧ f.scope = some Scope.global)).isSome = true := by
    rw [List.find?_isSome]
    exact ⟨f0, hf0, by simp [hf0n, hf0s]⟩
  simp only [saveFilter, hscope,
    show ∀ s : Scope, (some s = (none : Option Scope)) = False from fun s => by simp,
    false_and, if_false, Option.getD_none, Option.getD_some]
  rw [if_pos ⟨hsome, hans⟩]

/-- Witness for C7: declining the overwrite of the existing global filter
Dup leaves the state untouched and reports failure. -/
theorem saveFilter_decline_overwrite_no_write_witness :
    saveFilter
        { config := { globalFilters := [{ name := "Dup", «include» := "a", exclude := "" }],
                      globalFiltersEnabled := [] },
          globalState := {}, ws := {} }
        { name := "Dup", «include» := "b", exclude := "", scope := some Scope.global }
        none none (some "No") =
      ({ config := { globalFilters := [{ name := "Dup", «include» := "a", exclude := "" }],
                     globalFiltersEnabled := [] },
         globalState := {}, ws := {} }, false) :=
  saveFilter_decline_overwrite_no_write _ _ _ _ rfl
    ⟨{ name := "Dup", «include» := "a", exclude := "", scope := some Scope.global,
       enabled := some true }, by decide, by decide, by decide⟩
    (by decide)

end CustomSearchFilters
